import Mathlib

/-!
Verification development for the `powerset` Go library.

The library enumerates the powerset of `{0, …, n-1}` by walking the complete
binary decision tree of depth `n` (excluded child before included child).
We embed the tree walk (`powerSet`), the per-node callback traversal
(`powerSetCallback`), the public pipelines (`FixedSize`, `VariableSize`,
`Callback`), the converters (`llToIndicesFixed`, `llToIndicesVariable`) and
the cancel closure (`makeStopper`) as pure Lean functions and prove the
specified properties about them.

Conventions of the embedding:
* the Go recursion parameters `(n, k)` (current depth, tree depth) are
  represented as `(d, n)` with `d = k - n` the remaining depth, so that the
  recursion is structural; the wrappers start at `d = lenItems`, `n = 0`,
  exactly as the Go entry points call `powerSet(0, lenItems, …)`;
* the linked lists of the source (`Push` = prepend at the head, traversal
  from the head) are Lean lists with `::`;
* the output channels are the lists of values sent on them, in send order,
  in the run where the stop channel never fires (the pipelines' full drain);
* negative `lenItems` (a Go `int`) is treated by separate fuelled versions
  of the recursions, `powerSetFuel`/`powerSetCallbackFuel`, where `none`
  means "did not finish within the given number of recursive calls".
-/

namespace Powerset

/-- A node in a pathway through the powerset tree: going left (excluded)
or right (included) at the given index.  From the source type `PathNode`. -/
structure PathNode where
  Index : Nat
  Included : Bool
deriving DecidableEq, Repr

/-- A path is the list of decisions from the current node back towards the
root, most recent decision first.  From the source type `Path`. -/
abbrev Path := List PathNode

/-- The source `powerSet(n, k, indices, out, wg, stopIn)` restricted to the
run in which `stopIn` never fires: it emits a copy of `indices` at each leaf,
visiting the excluded child before the included one and pushing `n` at the
head of `indices` for the included child.  Here the first argument is the
remaining depth `d = k - n`, and the result is the list of values sent on
`out`, in order. -/
def powerSet : Nat → Nat → List Nat → List (List Nat)
  | 0, _, indices => [indices]
  | d+1, n, indices =>
      powerSet d (n+1) indices ++ powerSet d (n+1) (n :: indices)

/-- The source `llToIndicesFixed`: walk the linked list and set each
contained index to `true` in a boolean array of length `lenItems`.  In every
reachable state the indices are below `lenItems`. -/
def llToIndicesFixed (lenItems : Nat) (indices : List Nat) : List Bool :=
  indices.foldl (fun acc idx => acc.set idx true) (List.replicate lenItems false)

/-- The source `llToIndicesVariable`: walk the linked list from the head and
append each index to a growing array. -/
def llToIndicesVariable (indices : List Nat) : List Nat :=
  indices.foldl (fun acc idx => acc ++ [idx]) []

/-- The source `FixedSize(lenItems)` pipeline, fully drained with the stop
channel never fired: stage A runs `powerSet`, stage B converts each emitted
index list with `llToIndicesFixed` in arrival order. -/
def FixedSize (lenItems : Nat) : List (List Bool) :=
  (powerSet lenItems 0 []).map (llToIndicesFixed lenItems)

/-- The source `VariableSize(lenItems)` pipeline, fully drained with the stop
channel never fired: stage A runs `powerSet`, stage B converts each emitted
index list with `llToIndicesVariable` in arrival order. -/
def VariableSize (lenItems : Nat) : List (List Nat) :=
  (powerSet lenItems 0 []).map llToIndicesVariable

/-- One invocation of the decision function, as recorded by the traversal:
the depth `n` at which it happened, the path and leaf flag it was given, and
the state it received. -/
structure CallRec (σ : Type) where
  depth : Nat
  path : Path
  isLeaf : Bool
  stateIn : σ
deriving DecidableEq, Repr

/-- The source `powerSetCallback(n, k, indices, cb, path, state, out)`.
The first argument is the remaining depth `d = k - n`; `isLeaf` is `d = 0`,
i.e. `n = k`.  The decision function `cb` takes the path, the leaf flag and
the propagated state, and returns `(stop, stopNode, newState)`.  The result
is the list of decision-function calls made in this subtree, in order,
together with the `(stop, stopNode)` pair the frame returns:
* the frame first calls `cb`; if it says stop and `n > stopNode`, the frame
  returns immediately, suppressing the whole subtree below;
* a leaf then returns `(false, 0)`;
* otherwise the excluded child is explored; if it reports a stop with
  `n > stopNode` the frame re-raises it and skips the included child;
  otherwise the stop (if any) is cleared and the included child is explored
  normally, its result being the frame's result. -/
def powerSetCallback {σ : Type} (cb : Path → Bool → σ → Bool × Int × σ) :
    Nat → Nat → Path → σ → List (CallRec σ) × Bool × Int
  | 0, n, path, s =>
    let r := cb path true s
    if r.1 = true ∧ (n : Int) > r.2.1 then ([⟨n, path, true, s⟩], true, r.2.1)
    else ([⟨n, path, true, s⟩], false, 0)
  | d+1, n, path, s =>
    let r := cb path false s
    if r.1 = true ∧ (n : Int) > r.2.1 then ([⟨n, path, false, s⟩], true, r.2.1)
    else
      let resL := powerSetCallback cb d (n+1) (⟨n, false⟩ :: path) r.2.2
      if resL.2.1 = true ∧ (n : Int) > resL.2.2 then
        (⟨n, path, false, s⟩ :: resL.1, true, resL.2.2)
      else
        let resR := powerSetCallback cb d (n+1) (⟨n, true⟩ :: path) r.2.2
        (⟨n, path, false, s⟩ :: resL.1 ++ resR.1, resR.2)

/-- The source `Callback(lenItems, cb, state)`: start `powerSetCallback` at
the root with an empty path.  The result records every decision-function
call in order, and the `(stop, stopNode)` pair of the root frame. -/
def Callback {σ : Type} (lenItems : Nat) (cb : Path → Bool → σ → Bool × Int × σ)
    (state : σ) : List (CallRec σ) × Bool × Int :=
  powerSetCallback cb lenItems 0 [] state

/-- State of the `stopIn` channel used by the pipelines: whether it has been
closed. -/
structure StopChan where
  closed : Bool
deriving DecidableEq, Repr

/-- Closing a Go channel: closing an already-closed channel panics
(modelled as an error value). -/
def closeChan (c : StopChan) : Except String StopChan :=
  if c.closed then Except.error "close of closed channel" else Except.ok ⟨true⟩

/-- The source `makeStopper(in, wg)` closure: each call of the returned
`stop` function begins with `close(in)` (then waits on the wait group,
which is a timing effect outside this model).  The function maps the state
of the stop channel before the call to its state after, or to the panic. -/
def makeStopper (c : StopChan) : Except String StopChan :=
  closeChan c

/-- Calling the stopper closure twice in sequence, starting from the freshly
opened stop channel of `FixedSize`/`VariableSize`. -/
def stopTwice : Except String StopChan := do
  let c1 ← makeStopper ⟨false⟩
  makeStopper c1

/-- Fuelled version of the source `powerSet(n, k, …)` for a possibly
negative `k` (a Go `int`).  `n` starts at `0` and only increments, so it
stays a natural number; the leaf test is `n == k` on integers.  `none`
means the recursion did not complete within `fuel` nested calls. -/
def powerSetFuel : Nat → Nat → Int → List Nat → Option (List (List Nat))
  | 0, _, _, _ => none
  | fuel+1, n, k, indices =>
    if (n : Int) = k then some [indices]
    else
      match powerSetFuel fuel (n+1) k indices with
      | none => none
      | some l =>
        match powerSetFuel fuel (n+1) k (n :: indices) with
        | none => none
        | some r => some (l ++ r)

/-- Fuelled version of the source `powerSetCallback(n, k, …)` for a possibly
negative `k`.  Only the returned `(stop, stopNode)` pair is tracked. -/
def powerSetCallbackFuel {σ : Type} (cb : Path → Bool → σ → Bool × Int × σ) :
    Nat → Nat → Int → Path → σ → Option (Bool × Int)
  | 0, _, _, _, _ => none
  | fuel+1, n, k, path, s =>
    let isLeaf := (n : Int) = k
    let r := cb path (decide isLeaf) s
    if r.1 = true ∧ (n : Int) > r.2.1 then some (true, r.2.1)
    else if isLeaf then some (false, 0)
    else
      match powerSetCallbackFuel cb fuel (n+1) k (⟨n, false⟩ :: path) r.2.2 with
      | none => none
      | some resL =>
        if resL.1 = true ∧ (n : Int) > resL.2 then some (true, resL.2)
        else powerSetCallbackFuel cb fuel (n+1) k (⟨n, true⟩ :: path) r.2.2

/-- Fuelled `FixedSize` for a possibly negative `lenItems`: the consumer
stage converts whatever stage A manages to emit. -/
def FixedSizeFuel (fuel : Nat) (lenItems : Int) : Option (List (List Bool)) :=
  (powerSetFuel fuel 0 lenItems []).map (fun ls => ls.map (llToIndicesFixed lenItems.toNat))

/-- Fuelled `VariableSize` for a possibly negative `lenItems`. -/
def VariableSizeFuel (fuel : Nat) (lenItems : Int) : Option (List (List Nat)) :=
  (powerSetFuel fuel 0 lenItems []).map (fun ls => ls.map llToIndicesVariable)

/-- The pipelines on `lenItems` never produce their result stream, however
long they run: every fuel bound is exhausted with no leaf ever reached. -/
def pipelinesDiverge (lenItems : Int) : Prop :=
  ∀ fuel : Nat, FixedSizeFuel fuel lenItems = none ∧ VariableSizeFuel fuel lenItems = none

/-- Big-endian `m`-bit binary representation of `j`: position `i` of the
list is bit `m - 1 - i` of `j`.  Written from the spec's wording for the
expected `FixedSize` output order. -/
def natBits (m j : Nat) : List Bool :=
  (List.range m).map (fun i => j.testBit (m - 1 - i))

/-- Numeric value of a big-endian bit vector; inverse of `natBits`. -/
def ofBits (v : List Bool) : Nat :=
  v.foldl (fun acc b => 2 * acc + cond b 1 0) 0

/-- Modelled from the spec: the order in which the tree walk must visit the
nodes of the subtree at remaining depth `d`, current depth `n`, current
path `p` — the node itself, then the excluded child's subtree, then the
included child's subtree; each entry is the path together with the leaf
flag. -/
def specPreorder : Nat → Nat → Path → List (Path × Bool)
  | 0, _, p => [(p, true)]
  | d+1, n, p =>
      (p, false) ::
        (specPreorder d (n+1) (⟨n, false⟩ :: p) ++ specPreorder d (n+1) (⟨n, true⟩ :: p))

/-- Modelled from the spec: conversion of a variable-size combination to a
boolean vector of length `n` — position `i` is true iff index `i` occurs in
the combination. -/
def specToBoolVec (n : Nat) (L : List Nat) : List Bool :=
  (List.range n).map (fun i => decide (i ∈ L))

/-- A decision function post-composed with the sanitisation the spec asks
for: a stop whose resume level is at least the current depth (the path
length) is dropped, and a resume level below `-1` is replaced by `-1`. -/
def sanitizeCb {σ : Type} (cb : Path → Bool → σ → Bool × Int × σ) :
    Path → Bool → σ → Bool × Int × σ :=
  fun p l s =>
    let r := cb p l s
    if r.1 = true ∧ (p.length : Int) ≤ r.2.1 then (false, 0, r.2.2)
    else if r.1 = true ∧ r.2.1 < -1 then (true, -1, r.2.2)
    else r

/-- Observable agreement of two traversal results: same calls in the same
order, same stop flag, and stop levels that compare identically against
every depth (the only way the engine consumes a stop level). -/
def resultsAgree {σ : Type} (x y : List (CallRec σ) × Bool × Int) : Prop :=
  x.1 = y.1 ∧ x.2.1 = y.2.1 ∧
    (x.2.1 = true → ∀ j : Nat, ((j : Int) > x.2.2 ↔ (j : Int) > y.2.2))

/-- The decision function, applied to the inputs of the recorded call,
returned `stop = true` with `resumeLevel = -1`. -/
def returnsStopNeg1 {σ : Type} (cb : Path → Bool → σ → Bool × Int × σ)
    (c : CallRec σ) : Prop :=
  (cb c.path c.isLeaf c.stateIn).1 = true ∧ (cb c.path c.isLeaf c.stateIn).2.1 = -1

instance returnsStopNeg1Decidable {σ : Type} (cb : Path → Bool → σ → Bool × Int × σ)
    (c : CallRec σ) : Decidable (returnsStopNeg1 cb c) :=
  inferInstanceAs (Decidable ((cb c.path c.isLeaf c.stateIn).1 = true ∧
    (cb c.path c.isLeaf c.stateIn).2.1 = -1))

/-- The path invariant at depth `n`: the path has length `n` and its entry
at position `i` records the decision about index `n - 1 - i`. -/
def pathOk (n : Nat) (p : Path) : Prop :=
  p.length = n ∧ ∀ i (h : i < p.length), (p.get ⟨i, h⟩).Index = n - 1 - i

/-! ### Helper lemmas about the converters and the tree walk -/

theorem foldl_append_singleton (L : List Nat) : ∀ acc : List Nat,
    L.foldl (fun a x => a ++ [x]) acc = acc ++ L := by
  induction L with
  | nil => intro acc; simp
  | cons x t ih => intro acc; simp [List.foldl_cons, ih]

theorem llToIndicesVariable_eq (L : List Nat) : llToIndicesVariable L = L := by
  simp [llToIndicesVariable, foldl_append_singleton]

theorem foldl_set_true (L : List Nat) : ∀ (m : Nat) (g : Nat → Bool), (∀ x ∈ L, x < m) →
    L.foldl (fun acc idx => acc.set idx true) ((List.range m).map g)
      = (List.range m).map (fun i => g i || decide (i ∈ L)) := by
  induction L with
  | nil => intro m g _; simp
  | cons x t ih =>
    intro m g h
    have hx : x < m := h x (List.mem_cons_self x t)
    have hset : ((List.range m).map g).set x true
        = (List.range m).map (fun i => g i || decide (i = x)) := by
      apply List.ext_getElem
      · simp
      · intro i h1 h2
        simp only [List.getElem_set, List.getElem_map, List.getElem_range]
        by_cases hix : x = i
        · subst hix; simp
        · have : ¬ i = x := fun hh => hix hh.symm
          simp [hix, this]
    simp only [List.foldl_cons]
    rw [hset, ih m _ (fun y hy => h y (List.mem_cons_of_mem x hy))]
    congr 1
    funext i
    simp [List.mem_cons, Bool.or_assoc]

theorem llToIndicesFixed_eq_map (m : Nat) (L : List Nat) (h : ∀ x ∈ L, x < m) :
    llToIndicesFixed m L = (List.range m).map (fun i => decide (i ∈ L)) := by
  have hrep : (List.replicate m false) = (List.range m).map (fun _ => false) := by
    simp [List.map_const']
  rw [llToIndicesFixed, hrep, foldl_set_true L m _ h]
  simp

theorem powerSet_length (d : Nat) : ∀ (n : Nat) (L : List Nat),
    (powerSet d n L).length = 2 ^ d := by
  induction d with
  | zero => intro n L; simp [powerSet]
  | succ d ih =>
    intro n L
    simp only [powerSet, List.length_append, ih]
    rw [pow_succ]
    omega

theorem natBits_succ (d j : Nat) : natBits (d+1) j = j.testBit d :: natBits d j := by
  unfold natBits
  rw [List.range_succ_eq_map]
  simp only [List.map_cons, List.map_map]
  have h1 : d + 1 - 1 - 0 = d := by omega
  have h2 : ((fun i => j.testBit (d + 1 - 1 - i)) ∘ Nat.succ)
      = fun i => j.testBit (d - 1 - i) := by
    funext i
    simp only [Function.comp_apply]
    congr 1
    omega
  rw [h1, h2]

theorem natBits_congr (m a b : Nat) (h : ∀ i, i < m → a.testBit i = b.testBit i) :
    natBits m a = natBits m b := by
  unfold natBits
  apply List.map_congr_left
  intro i hi
  have : i < m := List.mem_range.mp hi
  exact h _ (by omega)

theorem specToBoolVec_succ (n : Nat) (L : List Nat) :
    specToBoolVec (n+1) L = specToBoolVec n L ++ [decide (n ∈ L)] := by
  unfold specToBoolVec
  rw [List.range_succ, List.map_append]
  rfl

theorem specToBoolVec_cons_self (n : Nat) (L : List Nat) :
    specToBoolVec n (n :: L) = specToBoolVec n L := by
  unfold specToBoolVec
  apply List.map_congr_left
  intro i hi
  have hlt : i < n := List.mem_range.mp hi
  have : ¬ i = n := by omega
  simp [List.mem_cons, this]

theorem powerSet_map_fixed (d : Nat) :
    ∀ (n M : Nat) (L : List Nat), M = n + d → (∀ x ∈ L, x < n) →
      (powerSet d n L).map (llToIndicesFixed M)
        = (List.range (2 ^ d)).map (fun j => specToBoolVec n L ++ natBits d j) := by
  induction d with
  | zero =>
    intro n M L hM h
    subst hM
    simp [powerSet, natBits, llToIndicesFixed_eq_map _ L h, specToBoolVec]
  | succ d ih =>
    intro n M L hM h
    have h1 : ∀ x ∈ L, x < n + 1 := fun x hx => Nat.lt_succ_of_lt (h x hx)
    have h2 : ∀ x ∈ (n :: L), x < n + 1 := by
      intro x hx
      rcases List.mem_cons.mp hx with rfl | hx
      · omega
      · exact Nat.lt_succ_of_lt (h x hx)
    have hnL : ¬ n ∈ L := fun hc => absurd (h n hc) (by omega)
    have e1 := ih (n+1) M L (by omega) h1
    have e2 := ih (n+1) M (n :: L) (by omega) h2
    rw [powerSet, List.map_append, e1, e2]
    rw [specToBoolVec_succ n L, specToBoolVec_succ n (n :: L), specToBoolVec_cons_self]
    have hsplit : (2 : Nat) ^ (d + 1) = 2 ^ d + 2 ^ d := by rw [pow_succ]; omega
    rw [hsplit, List.range_add, List.map_append, List.map_map]
    congr 1
    · apply List.map_congr_left
      intro j hj
      have hjlt : j < 2 ^ d := List.mem_range.mp hj
      rw [natBits_succ, Nat.testBit_lt_two_pow hjlt]
      simp [List.mem_cons, hnL]
    · apply List.map_congr_left
      intro j hj
      have hjlt : j < 2 ^ d := List.mem_range.mp hj
      simp only [Function.comp_apply]
      rw [natBits_succ, Nat.testBit_two_pow_add_eq, Nat.testBit_lt_two_pow hjlt]
      have htail : natBits d (2 ^ d + j) = natBits d j := by
        apply natBits_congr
        intro i hi
        exact Nat.testBit_two_pow_add_gt hi j
      rw [htail]
      simp [List.mem_cons, hnL]

theorem FixedSize_eq_natBits (n : Nat) :
    FixedSize n = (List.range (2 ^ n)).map (natBits n) := by
  have h := powerSet_map_fixed n 0 n [] (by omega) (by simp)
  rw [FixedSize, h]
  apply List.map_congr_left
  intro j _
  simp [specToBoolVec]

theorem foldl_ofBits (v : List Bool) : ∀ a : Nat,
    v.foldl (fun acc b => 2 * acc + cond b 1 0) a = a * 2 ^ v.length + ofBits v := by
  induction v with
  | nil => intro a; simp [ofBits]
  | cons b t ih =>
    intro a
    have hof : ofBits (b :: t) = (cond b 1 0) * 2 ^ t.length + ofBits t := by
      have hdef : ofBits (b :: t)
          = t.foldl (fun acc x => 2 * acc + cond x 1 0) (2 * 0 + cond b 1 0) := rfl
      rw [hdef, ih]
      ring_nf
    simp only [List.foldl_cons, List.length_cons]
    rw [ih, hof, pow_succ]
    ring

theorem ofBits_cons (b : Bool) (t : List Bool) :
    ofBits (b :: t) = (cond b 1 0) * 2 ^ t.length + ofBits t := by
  have hdef : ofBits (b :: t)
      = t.foldl (fun acc x => 2 * acc + cond x 1 0) (2 * 0 + cond b 1 0) := rfl
  rw [hdef, foldl_ofBits]
  ring_nf

theorem ofBits_lt (v : List Bool) : ofBits v < 2 ^ v.length := by
  induction v with
  | nil => simp [ofBits]
  | cons b t ih =>
    rw [ofBits_cons, List.length_cons, pow_succ]
    cases b <;> simp <;> omega

theorem natBits_ofBits (v : List Bool) : natBits v.length (ofBits v) = v := by
  induction v with
  | nil => simp [natBits]
  | cons b t ih =>
    have hlt := ofBits_lt t
    rw [List.length_cons, natBits_succ, ofBits_cons]
    have hbit : (cond b 1 0 * 2 ^ t.length + ofBits t).testBit t.length = b := by
      cases b
      · simpa using Nat.testBit_lt_two_pow hlt
      · simp only [cond_true, one_mul]
        rw [Nat.testBit_two_pow_add_eq, Nat.testBit_lt_two_pow hlt]
        rfl
    have htail : natBits t.length (cond b 1 0 * 2 ^ t.length + ofBits t)
        = natBits t.length (ofBits t) := by
      apply natBits_congr
      intro i hi
      cases b
      · simp
      · simp only [cond_true, one_mul]
        exact Nat.testBit_two_pow_add_gt hi _
    rw [hbit, htail, ih]

theorem fixedSize_complete (n : Nat) (v : List Bool) (hv : v.length = n) :
    v ∈ FixedSize n := by
  rw [FixedSize_eq_natBits]
  apply List.mem_map.mpr
  refine ⟨ofBits v, List.mem_range.mpr ?_, ?_⟩
  · rw [← hv]; exact ofBits_lt v
  · rw [← hv]; exact natBits_ofBits v

theorem natBits_inj (n a b : Nat) (ha : a < 2 ^ n) (hb : b < 2 ^ n)
    (h : natBits n a = natBits n b) : a = b := by
  apply Nat.eq_of_testBit_eq
  intro i
  by_cases hi : i < n
  · have hpt : ∀ p, p < n → a.testBit (n - 1 - p) = b.testBit (n - 1 - p) := by
      intro p hp
      have := congrArg (fun l => l[p]?) h
      simpa [natBits, List.getElem?_range hp] using this
    have := hpt (n - 1 - i) (by omega)
    rwa [show n - 1 - (n - 1 - i) = i by omega] at this
  · have hni : (2 : Nat) ^ n ≤ 2 ^ i := Nat.pow_le_pow_right (by norm_num) (by omega)
    rw [Nat.testBit_lt_two_pow (by omega), Nat.testBit_lt_two_pow (by omega)]

theorem FixedSize_nodup (n : Nat) : (FixedSize n).Nodup := by
  rw [FixedSize_eq_natBits]
  apply List.Nodup.map_on _ (List.nodup_range _)
  intro x hx y hy hxy
  exact natBits_inj n x y (List.mem_range.mp hx) (List.mem_range.mp hy) hxy

theorem powerSet_mem (d : Nat) : ∀ (n : Nat) (L M : List Nat), M ∈ powerSet d n L →
    ∃ S, M = S ++ L ∧ S.Pairwise (fun a b => a > b) ∧ ∀ x ∈ S, n ≤ x ∧ x < n + d := by
  induction d with
  | zero =>
    intro n L M hM
    simp only [powerSet, List.mem_singleton] at hM
    exact ⟨[], by simp [hM], by simp, by simp⟩
  | succ d ih =>
    intro n L M hM
    rw [powerSet, List.mem_append] at hM
    rcases hM with hM | hM
    · obtain ⟨S, hS1, hS2, hS3⟩ := ih (n+1) L M hM
      exact ⟨S, hS1, hS2, fun x hx => by have := hS3 x hx; omega⟩
    · obtain ⟨S, hS1, hS2, hS3⟩ := ih (n+1) (n :: L) M hM
      refine ⟨S ++ [n], by simp [hS1], ?_, ?_⟩
      · apply List.pairwise_append.mpr
        refine ⟨hS2, by simp, ?_⟩
        intro a ha b hb
        have hb' : b = n := by simpa using hb
        subst hb'
        have := hS3 a ha
        omega
      · intro x hx
        rcases List.mem_append.mp hx with hx | hx
        · have := hS3 x hx; omega
        · have : x = n := by simpa using hx
          omega

theorem powerSet_root_mem (n : Nat) (M : List Nat) (hM : M ∈ powerSet n 0 []) :
    M.Pairwise (fun a b => a > b) ∧ ∀ x ∈ M, x < n := by
  obtain ⟨S, h1, h2, h3⟩ := powerSet_mem n 0 [] M hM
  rw [List.append_nil] at h1
  subst h1
  exact ⟨h2, fun x hx => by have := h3 x hx; omega⟩

theorem sortedDec_eq : ∀ (L1 L2 : List Nat), L1.Pairwise (fun a b => a > b) →
    L2.Pairwise (fun a b => a > b) → (∀ x, x ∈ L1 ↔ x ∈ L2) → L1 = L2 := by
  intro L1
  induction L1 with
  | nil =>
    intro L2 _ _ h
    cases L2 with
    | nil => rfl
    | cons b t => exact absurd ((h b).mpr (List.mem_cons_self b t)) (List.not_mem_nil b)
  | cons a t1 ih =>
    intro L2 h1 h2 hm
    cases L2 with
    | nil => exact absurd ((hm a).mp (List.mem_cons_self a t1)) (List.not_mem_nil a)
    | cons b t2 =>
      have ha := (hm a).mp (List.mem_cons_self a t1)
      have hb := (hm b).mpr (List.mem_cons_self b t2)
      have hb2 : ∀ x ∈ t2, b > x := (List.pairwise_cons.mp h2).1
      have ha2 : ∀ x ∈ t1, a > x := (List.pairwise_cons.mp h1).1
      have hab : a = b := by
        rcases List.mem_cons.mp ha with h | h
        · exact h
        · have hba := hb2 a h
          rcases List.mem_cons.mp hb with h' | h'
          · omega
          · have := ha2 b h'; omega
      subst hab
      congr 1
      apply ih t2 (List.pairwise_cons.mp h1).2 (List.pairwise_cons.mp h2).2
      intro x
      constructor
      · intro hx
        have hlt := ha2 x hx
        rcases List.mem_cons.mp ((hm x).mp (List.mem_cons_of_mem a hx)) with h | h
        · omega
        · exact h
      · intro hx
        have hlt := hb2 x hx
        rcases List.mem_cons.mp ((hm x).mpr (List.mem_cons_of_mem a hx)) with h | h
        · omega
        · exact h

theorem mem_iff_of_vec_eq {n : Nat} {M L : List Nat}
    (h : (List.range n).map (fun i => decide (i ∈ M))
        = (List.range n).map (fun i => decide (i ∈ L)))
    (x : Nat) (hx : x < n) : x ∈ M ↔ x ∈ L := by
  have := congrArg (fun l => l[x]?) h
  simpa [List.getElem?_range hx] using this

theorem variableSize_eq_powerSet (n : Nat) : VariableSize n = powerSet n 0 [] := by
  rw [VariableSize]
  have : (powerSet n 0 []).map llToIndicesVariable = (powerSet n 0 []).map id := by
    apply List.map_congr_left
    intro M _
    simp [llToIndicesVariable_eq]
  rw [this, List.map_id]

theorem variableSize_complete (n : Nat) (L : List Nat)
    (h1 : L.Pairwise (fun a b => a > b)) (h2 : ∀ x ∈ L, x < n) :
    L ∈ VariableSize n := by
  have hv : specToBoolVec n L ∈ FixedSize n :=
    fixedSize_complete n _ (by simp [specToBoolVec])
  rw [FixedSize] at hv
  obtain ⟨M, hM, hfix⟩ := List.mem_map.mp hv
  obtain ⟨hMp, hMb⟩ := powerSet_root_mem n M hM
  rw [llToIndicesFixed_eq_map n M hMb] at hfix
  have hiff : ∀ x, x ∈ M ↔ x ∈ L := by
    intro x
    by_cases hx : x < n
    · exact mem_iff_of_vec_eq hfix x hx
    · constructor
      · intro hc; exact absurd (hMb x hc) hx
      · intro hc; exact absurd (h2 x hc) hx
  have : M = L := sortedDec_eq M L hMp h1 hiff
  rw [variableSize_eq_powerSet, ← this]
  exact hM

/-! ### Claims about the pipelines -/

/-- C10: for every `n ≥ 0` and every `0 ≤ k < 2^n`, the `k`-th boolean
combination produced by `FixedSize n` is the `n`-bit big-endian binary
representation of `k` — position `i` is true iff bit `n - 1 - i` of `k` is
set — i.e. the output stream counts in binary from `0` to `2^n - 1`. -/
theorem C10_fixedSize_counts_in_binary (n : Nat) :
    FixedSize n
      = (List.range (2 ^ n)).map (fun k => (List.range n).map (fun i => k.testBit (n - 1 - i))) := by
  rw [FixedSize_eq_natBits]
  rfl

/-- C3: for every `n ≥ 0`, `FixedSize n` and `VariableSize n` each produce
exactly `2^n` results with no duplicates and no omissions (every boolean
vector of length `n`, respectively every strictly decreasing list of indices
below `n`, occurs), and for `n = 3` the variable-size output order is
exactly `[], [2], [1], [2,1], [0], [2,0], [1,0], [2,1,0]`. -/
theorem C3_counts_nodup_complete_order :
    (∀ n : Nat,
      (FixedSize n).length = 2 ^ n ∧ (FixedSize n).Nodup ∧
      (∀ v : List Bool, v.length = n → v ∈ FixedSize n) ∧
      (VariableSize n).length = 2 ^ n ∧ (VariableSize n).Nodup ∧
      (∀ L : List Nat, L.Pairwise (fun a b => a > b) → (∀ x ∈ L, x < n) →
        L ∈ VariableSize n)) ∧
    VariableSize 3 = [[], [2], [1], [2, 1], [0], [2, 0], [1, 0], [2, 1, 0]] := by
  constructor
  · intro n
    refine ⟨?_, FixedSize_nodup n, fixedSize_complete n, ?_, ?_, variableSize_complete n⟩
    · simp [FixedSize, powerSet_length]
    · simp [VariableSize, powerSet_length]
    · rw [variableSize_eq_powerSet]
      have hf := FixedSize_nodup n
      rw [FixedSize] at hf
      exact List.Nodup.of_map _ hf
  · rfl

/-- Witness for C3: concrete instances of the completeness hypotheses. -/
theorem C3_witness : [true, false] ∈ FixedSize 2 ∧ [1, 0] ∈ VariableSize 2 :=
  ⟨(C3_counts_nodup_complete_order.1 2).2.2.1 [true, false] (by decide),
   (C3_counts_nodup_complete_order.1 2).2.2.2.2.2 [1, 0] (by decide) (by decide)⟩

/-- C4: for every `n ≥ 0` and every position `k`, the `k`-th combination
produced by `VariableSize n`, converted to a boolean vector of length `n`
(position `i` true iff index `i` occurs in the combination), equals the
`k`-th result produced by `FixedSize n` (stated on optional indexing, so it
also covers both streams ending together). -/
theorem C4_variable_matches_fixed (n k : Nat) :
    ((VariableSize n)[k]?).map (specToBoolVec n) = (FixedSize n)[k]? := by
  rw [VariableSize, FixedSize, List.getElem?_map, List.getElem?_map]
  cases h : (powerSet n 0 [])[k]? with
  | none => rfl
  | some M =>
    have hmem : M ∈ powerSet n 0 [] := List.getElem?_mem h
    have hb := (powerSet_root_mem n M hmem).2
    simp only [Option.map_some']
    rw [llToIndicesVariable_eq, llToIndicesFixed_eq_map n M hb]
    rfl

/-! ### Helper lemmas about the callback traversal -/

theorem specPreorder_length (d : Nat) : ∀ (n : Nat) (p : Path),
    (specPreorder d n p).length = 2 ^ (d+1) - 1 := by
  induction d with
  | zero => intro n p; simp [specPreorder]
  | succ d ih =>
    intro n p
    have h1 : (0:Nat) < 2 ^ (d+1) := Nat.pos_pow_of_pos _ (by norm_num)
    simp only [specPreorder, List.length_cons, List.length_append, ih]
    rw [pow_succ 2 (d+1)]
    omega

theorem psc_result_noStop {σ : Type} (cb : Path → Bool → σ → Bool × Int × σ)
    (hcb : ∀ p l s, (cb p l s).1 = false) (d : Nat) :
    ∀ (n : Nat) (p : Path) (s : σ), (powerSetCallback cb d n p s).2 = (false, 0) := by
  induction d with
  | zero => intro n p s; simp [powerSetCallback, hcb]
  | succ d ih => intro n p s; simp [powerSetCallback, hcb, ih]

theorem psc_trace_noStop {σ : Type} (cb : Path → Bool → σ → Bool × Int × σ)
    (hcb : ∀ p l s, (cb p l s).1 = false) (d : Nat) :
    ∀ (n : Nat) (p : Path) (s : σ),
      ((powerSetCallback cb d n p s).1).map (fun c => (c.path, c.isLeaf))
        = specPreorder d n p := by
  induction d with
  | zero => intro n p s; simp [powerSetCallback, hcb, specPreorder]
  | succ d ih =>
    intro n p s
    simp [powerSetCallback, hcb, psc_result_noStop cb hcb, specPreorder, ih]

theorem psc_length_noStop {σ : Type} (cb : Path → Bool → σ → Bool × Int × σ)
    (hcb : ∀ p l s, (cb p l s).1 = false) (d n : Nat) (p : Path) (s : σ) :
    ((powerSetCallback cb d n p s).1).length = 2 ^ (d+1) - 1 := by
  have h := congrArg List.length (psc_trace_noStop cb hcb d n p s)
  simpa [specPreorder_length] using h

theorem pathOk_cons (n : Nat) (p : Path) (b : Bool) (h : pathOk n p) :
    pathOk (n+1) (⟨n, b⟩ :: p) := by
  obtain ⟨hlen, hidx⟩ := h
  constructor
  · simp [hlen]
  · intro i hi
    cases i with
    | zero => simp
    | succ i =>
      simp only [List.length_cons] at hi
      have hi' : i < p.length := by omega
      have hgi := hidx i hi'
      have hred : ((⟨n, b⟩ :: p : Path).get ⟨i + 1, hi⟩) = p.get ⟨i, hi'⟩ := rfl
      rw [hred, hgi]
      omega

theorem psc_pathOk {σ : Type} (cb : Path → Bool → σ → Bool × Int × σ) (d : Nat) :
    ∀ (n : Nat) (p : Path) (s : σ), pathOk n p →
      ∀ c ∈ (powerSetCallback cb d n p s).1, pathOk c.depth c.path := by
  induction d with
  | zero =>
    intro n p s hp c hc
    have hcc : c = ⟨n, p, true, s⟩ := by
      simp only [powerSetCallback] at hc
      split at hc <;> simpa using hc
    subst hcc
    exact hp
  | succ d ih =>
    intro n p s hp c hc
    simp only [powerSetCallback] at hc
    split at hc
    · have hcc : c = ⟨n, p, false, s⟩ := by simpa using hc
      subst hcc
      exact hp
    · split at hc
      · simp only [List.mem_cons] at hc
        rcases hc with hcc | hc2
        · subst hcc; exact hp
        · exact ih (n+1) (⟨n, false⟩ :: p) _ (pathOk_cons n p false hp) c hc2
      · simp only [List.cons_append, List.mem_cons, List.mem_append] at hc
        rcases hc with hcc | hc3 | hc3
        · subst hcc; exact hp
        · exact ih (n+1) (⟨n, false⟩ :: p) _ (pathOk_cons n p false hp) c hc3
        · exact ih (n+1) (⟨n, true⟩ :: p) _ (pathOk_cons n p true hp) c hc3

/-! ### Claims about the callback traversal: full run and path shape -/

/-- C2: for every `n ≥ 0`, `Callback n cb s0` with a decision function that
never returns `stop = true` invokes the decision function exactly once per
node of the complete binary decision tree, `2^(n+1) - 1` calls in total,
visiting the excluded child before the included child (the calls follow the
preorder `specPreorder`); for `n = 0` the decision function runs exactly
once, with an empty path and `isLeaf = true`. -/
theorem C2_full_traversal_call_count {σ : Type}
    (cb : Path → Bool → σ → Bool × Int × σ) (k : Nat) (s : σ)
    (hcb : ∀ p l st, (cb p l st).1 = false) :
    (Callback k cb s).1.length = 2 ^ (k+1) - 1 ∧
    (Callback k cb s).1.map (fun c => (c.path, c.isLeaf)) = specPreorder k 0 [] ∧
    (k = 0 → (Callback k cb s).1 = [⟨0, [], true, s⟩]) := by
  refine ⟨psc_length_noStop cb hcb k 0 [] s, psc_trace_noStop cb hcb k 0 [] s, ?_⟩
  intro hk
  subst hk
  simp [Callback, powerSetCallback, hcb]

/-- Witness for C2: the never-stopping decision function on `n = 2` is
called exactly `2^3 - 1 = 7` times. -/
theorem C2_witness :
    (Callback 2 (fun _ _ _ => ((false : Bool), (0 : Int), ())) ()).1.length = 2 ^ (2+1) - 1 :=
  (C2_full_traversal_call_count (fun _ _ _ => ((false : Bool), (0 : Int), ())) 2 ()
    (fun _ _ _ => rfl)).1

/-- C9: every `Path` passed to the decision function satisfies the path
invariant: its length equals the current node's depth, the empty path occurs
exactly at the root, entry `i` records the decision about index
`depth - 1 - i` (so entry `0` is the most recently made decision), and the
indices strictly decrease along the path. -/
theorem C9_path_invariant {σ : Type} (cb : Path → Bool → σ → Bool × Int × σ)
    (k : Nat) (s : σ) (c : CallRec σ) (hc : c ∈ (Callback k cb s).1) :
    c.path.length = c.depth ∧
    (∀ i (h : i < c.path.length), (c.path.get ⟨i, h⟩).Index = c.depth - 1 - i) ∧
    (c.path = [] ↔ c.depth = 0) ∧
    (∀ i j (hi : i < c.path.length) (hj : j < c.path.length), i < j →
      (c.path.get ⟨i, hi⟩).Index > (c.path.get ⟨j, hj⟩).Index) := by
  have hroot : pathOk 0 ([] : Path) := ⟨rfl, by intro i h; simp at h⟩
  obtain ⟨hlen, hidx⟩ := psc_pathOk cb k 0 [] s hroot c hc
  refine ⟨hlen, hidx, ?_, ?_⟩
  · rw [← hlen, List.length_eq_zero]
  · intro i j hi hj hij
    rw [hidx i hi, hidx j hj]
    have : j < c.depth := hlen ▸ hj
    omega

/-- Witness for C9: a concrete call record of the `n = 2` traversal. -/
theorem C9_witness :
    ((⟨2, [⟨1, false⟩, ⟨0, false⟩], true, ()⟩ : CallRec Unit)).path.length = 2 :=
  (C9_path_invariant (fun _ _ _ => ((false : Bool), (0 : Int), ())) 2 ()
    ⟨2, [⟨1, false⟩, ⟨0, false⟩], true, ()⟩ (by decide)).1

/-! ### Unfolding equations for the callback traversal -/

theorem psc_zero_eq {σ : Type} (cb : Path → Bool → σ → Bool × Int × σ)
    (n : Nat) (p : Path) (s : σ) :
    powerSetCallback cb 0 n p s =
      if (cb p true s).1 = true ∧ (n : Int) > (cb p true s).2.1 then
        ([⟨n, p, true, s⟩], true, (cb p true s).2.1)
      else ([⟨n, p, true, s⟩], false, 0) := rfl

theorem psc_succ_eq {σ : Type} (cb : Path → Bool → σ → Bool × Int × σ)
    (d n : Nat) (p : Path) (s : σ) :
    powerSetCallback cb (d+1) n p s =
      if (cb p false s).1 = true ∧ (n : Int) > (cb p false s).2.1 then
        ([⟨n, p, false, s⟩], true, (cb p false s).2.1)
      else if (powerSetCallback cb d (n+1) (⟨n, false⟩ :: p) (cb p false s).2.2).2.1 = true ∧
          (n : Int) > (powerSetCallback cb d (n+1) (⟨n, false⟩ :: p) (cb p false s).2.2).2.2 then
        (⟨n, p, false, s⟩ :: (powerSetCallback cb d (n+1) (⟨n, false⟩ :: p) (cb p false s).2.2).1,
          true, (powerSetCallback cb d (n+1) (⟨n, false⟩ :: p) (cb p false s).2.2).2.2)
      else
        (⟨n, p, false, s⟩ :: (powerSetCallback cb d (n+1) (⟨n, false⟩ :: p) (cb p false s).2.2).1
            ++ (powerSetCallback cb d (n+1) (⟨n, true⟩ :: p) (cb p false s).2.2).1,
          (powerSetCallback cb d (n+1) (⟨n, true⟩ :: p) (cb p false s).2.2).2) := rfl

theorem psc_neg1_invariant {σ : Type} (cb : Path → Bool → σ → Bool × Int × σ) (d : Nat) :
    ∀ (n : Nat) (p : Path) (s : σ),
      (∀ c ∈ (powerSetCallback cb d n p s).1, ¬ returnsStopNeg1 cb c) ∨
      (∃ t0 cz, (powerSetCallback cb d n p s).1 = t0 ++ [cz] ∧ returnsStopNeg1 cb cz ∧
        (∀ c ∈ t0, ¬ returnsStopNeg1 cb c) ∧
        (powerSetCallback cb d n p s).2 = (true, -1)) := by
  induction d with
  | zero =>
    intro n p s
    by_cases hneg : returnsStopNeg1 cb (⟨n, p, true, s⟩ : CallRec σ)
    · obtain ⟨h1, h2⟩ := hneg
      have hcond : (cb p true s).1 = true ∧ (n : Int) > (cb p true s).2.1 :=
        ⟨h1, by rw [h2]; omega⟩
      right
      refine ⟨[], ⟨n, p, true, s⟩, ?_, ⟨h1, h2⟩, by simp, ?_⟩
      · rw [psc_zero_eq, if_pos hcond]
        simp
      · rw [psc_zero_eq, if_pos hcond]
        simp only [] at h2
        simp [h2]
    · left
      intro c hc
      rw [psc_zero_eq] at hc
      have hcc : c = ⟨n, p, true, s⟩ := by split at hc <;> simpa using hc
      subst hcc
      exact hneg
  | succ d ih =>
    intro n p s
    by_cases hraise : (cb p false s).1 = true ∧ (n : Int) > (cb p false s).2.1
    · by_cases hneg : returnsStopNeg1 cb (⟨n, p, false, s⟩ : CallRec σ)
      · obtain ⟨h1, h2⟩ := hneg
        right
        refine ⟨[], ⟨n, p, false, s⟩, ?_, ⟨h1, h2⟩, by simp, ?_⟩
        · rw [psc_succ_eq, if_pos hraise]
          simp
        · rw [psc_succ_eq, if_pos hraise]
          simp only [] at h2
          simp [h2]
      · left
        intro c hc
        rw [psc_succ_eq, if_pos hraise] at hc
        have hcc : c = ⟨n, p, false, s⟩ := by simpa using hc
        subst hcc
        exact hneg
    · have hnegc0 : ¬ returnsStopNeg1 cb (⟨n, p, false, s⟩ : CallRec σ) := by
        rintro ⟨h1, h2⟩
        exact hraise ⟨h1, by rw [h2]; omega⟩
      rcases ih (n+1) (⟨n, false⟩ :: p) (cb p false s).2.2 with
        hL | ⟨t0, cz, hLtr, hLneg, hLclean, hLres⟩
      · by_cases hLraise :
            (powerSetCallback cb d (n+1) (⟨n, false⟩ :: p) (cb p false s).2.2).2.1 = true ∧
            (n : Int) > (powerSetCallback cb d (n+1) (⟨n, false⟩ :: p) (cb p false s).2.2).2.2
        · left
          intro c hc
          rw [psc_succ_eq, if_neg hraise, if_pos hLraise] at hc
          simp only [List.mem_cons] at hc
          rcases hc with rfl | hc
          · exact hnegc0
          · exact hL c hc
        · rcases ih (n+1) (⟨n, true⟩ :: p) (cb p false s).2.2 with
            hR | ⟨t0R, czR, hRtr, hRneg, hRclean, hRres⟩
          · left
            intro c hc
            rw [psc_succ_eq, if_neg hraise, if_neg hLraise] at hc
            simp only [List.cons_append, List.mem_cons, List.mem_append] at hc
            rcases hc with rfl | hc | hc
            · exact hnegc0
            · exact hL c hc
            · exact hR c hc
          · right
            refine ⟨⟨n, p, false, s⟩ ::
                (powerSetCallback cb d (n+1) (⟨n, false⟩ :: p) (cb p false s).2.2).1 ++ t0R,
                czR, ?_, hRneg, ?_, ?_⟩
            · rw [psc_succ_eq, if_neg hraise, if_neg hLraise]
              simp [hRtr]
            · intro c hc
              simp only [List.cons_append, List.mem_cons, List.mem_append] at hc
              rcases hc with rfl | hc | hc
              · exact hnegc0
              · exact hL c hc
              · exact hRclean c hc
            · rw [psc_succ_eq, if_neg hraise, if_neg hLraise]
              simpa using hRres
      · have hLs1 :
            (powerSetCallback cb d (n+1) (⟨n, false⟩ :: p) (cb p false s).2.2).2.1 = true := by
          rw [hLres]
        have hLs2 :
            (powerSetCallback cb d (n+1) (⟨n, false⟩ :: p) (cb p false s).2.2).2.2 = -1 := by
          rw [hLres]
        have hLraise :
            (powerSetCallback cb d (n+1) (⟨n, false⟩ :: p) (cb p false s).2.2).2.1 = true ∧
            (n : Int) > (powerSetCallback cb d (n+1) (⟨n, false⟩ :: p) (cb p false s).2.2).2.2 :=
          ⟨hLs1, by rw [hLs2]; omega⟩
        right
        refine ⟨⟨n, p, false, s⟩ :: t0, cz, ?_, hLneg, ?_, ?_⟩
        · rw [psc_succ_eq, if_neg hraise, if_pos hLraise]
          simp [hLtr]
        · intro c hc
          simp only [List.mem_cons] at hc
          rcases hc with rfl | hc
          · exact hnegc0
          · exact hLclean c hc
        · rw [psc_succ_eq, if_neg hraise, if_pos hLraise]
          simp [hLs2]

/-- C5: if the decision function returns `stop = true` with
`resumeLevel = -1` at any node at any depth, the entire traversal halts with
no further decision-function calls — such a call can only be the last one of
the run — and every frame including the root re-raises the stop, so the root
frame's result is `(true, -1)` and the root's not-yet-explored included
branch is never visited. -/
theorem C5_resumeLevel_neg1_halts {σ : Type} (cb : Path → Bool → σ → Bool × Int × σ)
    (k : Nat) (s : σ) :
    (∀ c ∈ ((Callback k cb s).1).dropLast, ¬ returnsStopNeg1 cb c) ∧
    (∀ c, ((Callback k cb s).1).getLast? = some c → returnsStopNeg1 cb c →
      (Callback k cb s).2 = (true, -1)) := by
  simp only [Callback]
  rcases psc_neg1_invariant cb k 0 [] s with h | ⟨t0, cz, htr, hneg, hclean, hres⟩
  · constructor
    · intro c hc
      exact h c ((List.dropLast_sublist _).subset hc)
    · intro c hlast hcn
      exact absurd hcn (h c (List.mem_of_getLast?_eq_some hlast))
  · constructor
    · intro c hc
      rw [htr, List.dropLast_concat] at hc
      exact hclean c hc
    · intro c hlast hcn
      exact hres

/-- Witness for C5: a decision function demanding `resumeLevel = -1` at the
leftmost leaf of the `n = 3` tree makes the root return `(true, -1)`. -/
theorem C5_witness :
    (Callback 3 (fun p _ _ => if p = [⟨2, false⟩, ⟨1, false⟩, ⟨0, false⟩]
        then ((true : Bool), (-1 : Int), ()) else ((false : Bool), (0 : Int), ())) ()).2
      = (true, -1) :=
  (C5_resumeLevel_neg1_halts
      (fun p _ _ => if p = [⟨2, false⟩, ⟨1, false⟩, ⟨0, false⟩]
        then ((true : Bool), (-1 : Int), ()) else ((false : Bool), (0 : Int), ())) 3 ()).2
    ⟨3, [⟨2, false⟩, ⟨1, false⟩, ⟨0, false⟩], true, ()⟩ (by decide) (by decide)

/-- C1: the stop/resume protocol of the callback traversal.  (a) A frame
whose decision function returns `stop = true` with `resumeLevel = rL` while
its depth `n` exceeds `rL` returns immediately: its whole subtree receives
no further decision-function calls.  (b) An unwinding ancestor frame at
depth `n > rL` re-raises the same stop and skips its own included sibling
branch.  (c) The frame at depth `n ≤ rL` clears the stop and explores its
included sibling branch normally, so the sibling branch at exactly the
resume level still executes afterward.  Finally, the spec's concrete
scenario: stopping at path `{1:+, 0:-}` with resume level `0` in the `n = 3`
tree suppresses exactly the two nodes below `{1:+, 0:-}` and resumes at
`{0:+}`. -/
theorem C1_stop_unwinding :
    (∀ (σ : Type) (cb : Path → Bool → σ → Bool × Int × σ) (d n : Nat) (p : Path) (s : σ),
      ((cb p (d == 0) s).1 = true → (n : Int) > (cb p (d == 0) s).2.1 →
        powerSetCallback cb d n p s = ([⟨n, p, d == 0, s⟩], true, (cb p (d == 0) s).2.1)) ∧
      (∀ tL rL, ¬ ((cb p false s).1 = true ∧ (n : Int) > (cb p false s).2.1) →
        powerSetCallback cb d (n+1) (⟨n, false⟩ :: p) (cb p false s).2.2 = (tL, true, rL) →
        (n : Int) > rL →
        powerSetCallback cb (d+1) n p s = (⟨n, p, false, s⟩ :: tL, true, rL)) ∧
      (∀ tL rL, ¬ ((cb p false s).1 = true ∧ (n : Int) > (cb p false s).2.1) →
        powerSetCallback cb d (n+1) (⟨n, false⟩ :: p) (cb p false s).2.2 = (tL, true, rL) →
        (n : Int) ≤ rL →
        powerSetCallback cb (d+1) n p s =
          (⟨n, p, false, s⟩ :: tL
              ++ (powerSetCallback cb d (n+1) (⟨n, true⟩ :: p) (cb p false s).2.2).1,
            (powerSetCallback cb d (n+1) (⟨n, true⟩ :: p) (cb p false s).2.2).2))) ∧
    (Callback 3
        (fun q _ _ => if q = [⟨1, true⟩, ⟨0, false⟩] then ((true : Bool), (0 : Int), ())
          else ((false : Bool), (0 : Int), ()))
        ()).1.map (fun c => c.path) =
      [[], [⟨0, false⟩], [⟨1, false⟩, ⟨0, false⟩],
       [⟨2, false⟩, ⟨1, false⟩, ⟨0, false⟩], [⟨2, true⟩, ⟨1, false⟩, ⟨0, false⟩],
       [⟨1, true⟩, ⟨0, false⟩],
       [⟨0, true⟩], [⟨1, false⟩, ⟨0, true⟩],
       [⟨2, false⟩, ⟨1, false⟩, ⟨0, true⟩], [⟨2, true⟩, ⟨1, false⟩, ⟨0, true⟩],
       [⟨1, true⟩, ⟨0, true⟩], [⟨2, false⟩, ⟨1, true⟩, ⟨0, true⟩],
       [⟨2, true⟩, ⟨1, true⟩, ⟨0, true⟩]] := by
  constructor
  · intro σ cb d n p s
    refine ⟨?_, ?_, ?_⟩
    · intro h1 h2
      cases d with
      | zero =>
        simp only [show ((0 : Nat) == 0) = true from rfl] at h1 h2 ⊢
        rw [psc_zero_eq, if_pos ⟨h1, h2⟩]
      | succ d =>
        simp only [show ((d + 1 : Nat) == 0) = false from rfl] at h1 h2 ⊢
        rw [psc_succ_eq, if_pos ⟨h1, h2⟩]
    · intro tL rL hno hL hgt
      rw [psc_succ_eq, if_neg hno, hL, if_pos ⟨rfl, hgt⟩]
    · intro tL rL hno hL hle
      rw [psc_succ_eq, if_neg hno, hL,
        if_neg (fun hx => absurd hx.2 (not_lt.mpr hle))]
  · decide

/-- Witness for C1: the three unwinding cases at concrete inputs — a raise
at depth 1 above resume level 0, a re-raise at depth 1 above resume level 0,
and a clear at depth 1 with resume level 1 followed by the sibling branch. -/
theorem C1_witness :
    powerSetCallback (fun _ _ _ => ((true : Bool), (0 : Int), ())) 0 1 [⟨0, false⟩] ()
      = ([⟨1, [⟨0, false⟩], true, ()⟩], true, 0) ∧
    powerSetCallback
        (fun q _ _ => if q.length == 2 then ((true : Bool), (0 : Int), ())
          else ((false : Bool), (0 : Int), ())) 2 1 [⟨0, false⟩] ()
      = (⟨1, [⟨0, false⟩], false, ()⟩ ::
          [⟨2, [⟨1, false⟩, ⟨0, false⟩], false, ()⟩], true, 0) ∧
    powerSetCallback
        (fun q _ _ => if q.length == 2 then ((true : Bool), (1 : Int), ())
          else ((false : Bool), (0 : Int), ())) 2 1 [⟨0, false⟩] ()
      = (⟨1, [⟨0, false⟩], false, ()⟩ ::
          [⟨2, [⟨1, false⟩, ⟨0, false⟩], false, ()⟩]
            ++ (powerSetCallback
                (fun q _ _ => if q.length == 2 then ((true : Bool), (1 : Int), ())
                  else ((false : Bool), (0 : Int), ())) 1 2 [⟨1, true⟩, ⟨0, false⟩] ()).1,
          (powerSetCallback
              (fun q _ _ => if q.length == 2 then ((true : Bool), (1 : Int), ())
                else ((false : Bool), (0 : Int), ())) 1 2 [⟨1, true⟩, ⟨0, false⟩] ()).2) :=
  ⟨(C1_stop_unwinding.1 Unit (fun _ _ _ => ((true : Bool), (0 : Int), ())) 0 1
      [⟨0, false⟩] ()).1 (by decide) (by decide),
   ((C1_stop_unwinding.1 Unit
      (fun q _ _ => if q.length == 2 then ((true : Bool), (0 : Int), ())
        else ((false : Bool), (0 : Int), ())) 1 1 [⟨0, false⟩] ()).2.1
      [⟨2, [⟨1, false⟩, ⟨0, false⟩], false, ()⟩] 0 (by decide) (by decide) (by decide)),
   ((C1_stop_unwinding.1 Unit
      (fun q _ _ => if q.length == 2 then ((true : Bool), (1 : Int), ())
        else ((false : Bool), (0 : Int), ())) 1 1 [⟨0, false⟩] ()).2.2
      [⟨2, [⟨1, false⟩, ⟨0, false⟩], false, ()⟩] 1 (by decide) (by decide) (by decide))⟩

/-! ### Out-of-range resume levels (C6) -/

theorem resultsAgree_refl {σ : Type} (x : List (CallRec σ) × Bool × Int) :
    resultsAgree x x :=
  ⟨rfl, rfl, fun _ _ => Iff.rfl⟩

theorem resultsAgree_branch {σ : Type} (c0 : CallRec σ)
    (L L' R R' : List (CallRec σ) × Bool × Int)
    (hL : resultsAgree L L') (hR : resultsAgree R R') (n : Nat) :
    resultsAgree
      (if L.2.1 = true ∧ (n : Int) > L.2.2 then (c0 :: L.1, true, L.2.2)
        else (c0 :: L.1 ++ R.1, R.2))
      (if L'.2.1 = true ∧ (n : Int) > L'.2.2 then (c0 :: L'.1, true, L'.2.2)
        else (c0 :: L'.1 ++ R'.1, R'.2)) := by
  obtain ⟨hL1, hL2, hL3⟩ := hL
  obtain ⟨hR1, hR2, hR3⟩ := hR
  by_cases hc : L.2.1 = true ∧ (n : Int) > L.2.2
  · have hc' : L'.2.1 = true ∧ (n : Int) > L'.2.2 := ⟨hL2 ▸ hc.1, (hL3 hc.1 n).mp hc.2⟩
    rw [if_pos hc, if_pos hc']
    exact ⟨by rw [hL1], rfl, fun _ j => hL3 hc.1 j⟩
  · have hc' : ¬ (L'.2.1 = true ∧ (n : Int) > L'.2.2) := by
      rintro ⟨h1, h2⟩
      have hs : L.2.1 = true := hL2 ▸ h1
      exact hc ⟨hs, (hL3 hs n).mpr h2⟩
    rw [if_neg hc, if_neg hc']
    exact ⟨by rw [hL1, hR1], hR2, fun h j => hR3 h j⟩

theorem psc_sanitize_aux {σ : Type} (cb : Path → Bool → σ → Bool × Int × σ) (d : Nat) :
    ∀ (n : Nat) (p : Path) (s : σ), p.length = n →
      resultsAgree (powerSetCallback cb d n p s)
        (powerSetCallback (sanitizeCb cb) d n p s) := by
  induction d with
  | zero =>
    intro n p s hp
    rw [psc_zero_eq, psc_zero_eq]
    by_cases hA : (cb p true s).1 = true ∧ (p.length : Int) ≤ (cb p true s).2.1
    · have hq : sanitizeCb cb p true s = (false, 0, (cb p true s).2.2) := by
        simp only [sanitizeCb]
        rw [if_pos hA]
      have hno : ¬ ((cb p true s).1 = true ∧ (n : Int) > (cb p true s).2.1) := by
        rintro ⟨_, hgt⟩
        have hle := hA.2
        rw [hp] at hle
        omega
      have hno' : ¬ ((sanitizeCb cb p true s).1 = true ∧
          (n : Int) > (sanitizeCb cb p true s).2.1) := by
        rw [hq]
        rintro ⟨hc, _⟩
        exact absurd hc Bool.false_ne_true
      rw [if_neg hno, if_neg hno']
      exact ⟨rfl, rfl, fun h => absurd h Bool.false_ne_true⟩
    · by_cases hB : (cb p true s).1 = true ∧ (cb p true s).2.1 < -1
      · have hq : sanitizeCb cb p true s = (true, -1, (cb p true s).2.2) := by
          simp only [sanitizeCb]
          rw [if_neg hA, if_pos hB]
        have hlt := hB.2
        have hyes : (cb p true s).1 = true ∧ (n : Int) > (cb p true s).2.1 :=
          ⟨hB.1, by omega⟩
        have hyes' : (sanitizeCb cb p true s).1 = true ∧
            (n : Int) > (sanitizeCb cb p true s).2.1 := by
          rw [hq]
          exact ⟨rfl, show (n : Int) > -1 by omega⟩
        rw [if_pos hyes, if_pos hyes', hq]
        refine ⟨rfl, rfl, fun _ j => ?_⟩
        show (j : Int) > (cb p true s).2.1 ↔ (j : Int) > -1
        constructor <;> intro h <;> omega
      · have hq : sanitizeCb cb p true s = cb p true s := by
          simp only [sanitizeCb]
          rw [if_neg hA, if_neg hB]
        rw [hq]
        exact resultsAgree_refl _
  | succ d ih =>
    intro n p s hp
    have hlen1 : (⟨n, false⟩ :: p : Path).length = n + 1 := by simp [hp]
    have hlen2 : (⟨n, true⟩ :: p : Path).length = n + 1 := by simp [hp]
    rw [psc_succ_eq, psc_succ_eq]
    by_cases hA : (cb p false s).1 = true ∧ (p.length : Int) ≤ (cb p false s).2.1
    · have hq : sanitizeCb cb p false s = (false, 0, (cb p false s).2.2) := by
        simp only [sanitizeCb]
        rw [if_pos hA]
      have hno : ¬ ((cb p false s).1 = true ∧ (n : Int) > (cb p false s).2.1) := by
        rintro ⟨_, hgt⟩
        have hle := hA.2
        rw [hp] at hle
        omega
      have hno' : ¬ ((sanitizeCb cb p false s).1 = true ∧
          (n : Int) > (sanitizeCb cb p false s).2.1) := by
        rw [hq]
        rintro ⟨hc, _⟩
        exact absurd hc Bool.false_ne_true
      rw [if_neg hno, if_neg hno', hq]
      exact resultsAgree_branch _ _ _ _ _
        (ih (n+1) (⟨n, false⟩ :: p) ((cb p false s).2.2) hlen1)
        (ih (n+1) (⟨n, true⟩ :: p) ((cb p false s).2.2) hlen2) n
    · by_cases hB : (cb p false s).1 = true ∧ (cb p false s).2.1 < -1
      · have hq : sanitizeCb cb p false s = (true, -1, (cb p false s).2.2) := by
          simp only [sanitizeCb]
          rw [if_neg hA, if_pos hB]
        have hlt := hB.2
        have hyes : (cb p false s).1 = true ∧ (n : Int) > (cb p false s).2.1 :=
          ⟨hB.1, by omega⟩
        have hyes' : (sanitizeCb cb p false s).1 = true ∧
            (n : Int) > (sanitizeCb cb p false s).2.1 := by
          rw [hq]
          exact ⟨rfl, show (n : Int) > -1 by omega⟩
        rw [if_pos hyes, if_pos hyes', hq]
        refine ⟨rfl, rfl, fun _ j => ?_⟩
        show (j : Int) > (cb p false s).2.1 ↔ (j : Int) > -1
        constructor <;> intro h <;> omega
      · have hq : sanitizeCb cb p false s = cb p false s := by
          simp only [sanitizeCb]
          rw [if_neg hA, if_neg hB]
        rw [hq]
        by_cases hraise : (cb p false s).1 = true ∧ (n : Int) > (cb p false s).2.1
        · rw [if_pos hraise, if_pos hraise]
          exact resultsAgree_refl _
        · rw [if_neg hraise, if_neg hraise]
          exact resultsAgree_branch _ _ _ _ _
            (ih (n+1) (⟨n, false⟩ :: p) ((cb p false s).2.2) hlen1)
            (ih (n+1) (⟨n, true⟩ :: p) ((cb p false s).2.2) hlen2) n

/-- C6 (amended): the engine performs no validation of `resumeLevel` — a
stop whose resume level is at least the current depth is silently dropped,
and a resume level below `-1` behaves exactly like `-1`; sanitising the
decision function's out-of-range directives this way leaves the sequence of
decision-function calls unchanged, so no invalid-argument fault is ever
signalled. -/
theorem C6_out_of_range_sanitized {σ : Type} (cb : Path → Bool → σ → Bool × Int × σ)
    (k : Nat) (s : σ) :
    (Callback k cb s).1 = (Callback k (sanitizeCb cb) s).1 :=
  (psc_sanitize_aux cb k 0 [] s rfl).1

/-- C6 counterexample: a decision function that demands a stop with
`resumeLevel = 5` at every node of the `n = 1` tree — out of range at every
depth — produces a run indistinguishable from a never-stopping one: all
three nodes are visited and the root reports no stop and no fault, refuting
the claim that an out-of-range resume level is faulted rather than silently
ignored. -/
theorem C6_counterexample :
    Callback 1 (fun _ _ _ => ((true : Bool), (5 : Int), ())) ()
      = Callback 1 (fun _ _ _ => ((false : Bool), (0 : Int), ())) () := by
  decide

/-! ### Negative `lenItems` (C7) and the cancel closure (C8) -/

theorem powerSetFuel_neg (k : Int) (hk : k < 0) :
    ∀ (fuel : Nat) (n : Nat) (L : List Nat), powerSetFuel fuel n k L = none := by
  intro fuel
  induction fuel with
  | zero => intro n L; rfl
  | succ fuel ih =>
    intro n L
    have hne : ¬ ((n : Int) = k) := by omega
    simp [powerSetFuel, hne, ih]

theorem powerSetCallbackFuel_neg {σ : Type} (cb : Path → Bool → σ → Bool × Int × σ)
    (hcb : ∀ p l s, (cb p l s).1 = false) (k : Int) (hk : k < 0) :
    ∀ (fuel : Nat) (n : Nat) (p : Path) (s : σ),
      powerSetCallbackFuel cb fuel n k p s = none := by
  intro fuel
  induction fuel with
  | zero => intro n p s; rfl
  | succ fuel ih =>
    intro n p s
    have hne : ¬ ((n : Int) = k) := by omega
    simp [powerSetCallbackFuel, hne, hcb, ih]

/-- C7 (amended): no entry point validates `lenItems`: for `lenItems < 0`
there is no invalid-argument fault — the tree walk simply never reaches a
leaf, so `FixedSize`/`VariableSize` never produce their streams however much
fuel they are given, and the `Callback` traversal (with a never-stopping
decision function) never terminates either. -/
theorem C7_negative_n_no_fault_diverges (k : Int) (hk : k < 0) :
    (∀ fuel : Nat, FixedSizeFuel fuel k = none) ∧
    (∀ fuel : Nat, VariableSizeFuel fuel k = none) ∧
    (∀ (σ : Type) (cb : Path → Bool → σ → Bool × Int × σ) (s : σ),
      (∀ p l st, (cb p l st).1 = false) →
      ∀ fuel : Nat, powerSetCallbackFuel cb fuel 0 k [] s = none) := by
  refine ⟨?_, ?_, ?_⟩
  · intro fuel
    simp [FixedSizeFuel, powerSetFuel_neg k hk fuel 0 []]
  · intro fuel
    simp [VariableSizeFuel, powerSetFuel_neg k hk fuel 0 []]
  · intro σ cb s hcb fuel
    exact powerSetCallbackFuel_neg cb hcb k hk fuel 0 [] s

/-- Witness for C7: concrete fuel bounds at `lenItems = -1`. -/
theorem C7_witness :
    FixedSizeFuel 9 (-1) = none ∧ VariableSizeFuel 9 (-1) = none ∧
    powerSetCallbackFuel (fun _ _ _ => ((false : Bool), (0 : Int), ())) 9 0 (-1) [] ()
      = none :=
  ⟨(C7_negative_n_no_fault_diverges (-1) (by norm_num)).1 9,
   (C7_negative_n_no_fault_diverges (-1) (by norm_num)).2.1 9,
   (C7_negative_n_no_fault_diverges (-1) (by norm_num)).2.2 Unit
      (fun _ _ _ => ((false : Bool), (0 : Int), ())) () (fun _ _ _ => rfl) 9⟩

/-- C7 counterexample: at `lenItems = -1` the pipelines do not fail fast
with a fault — they never finish at all: every fuel bound is exhausted
without producing the result streams. -/
theorem C7_counterexample : pipelinesDiverge (-1) := by
  intro fuel
  constructor
  · simp [FixedSizeFuel, powerSetFuel_neg (-1) (by norm_num) fuel 0 []]
  · simp [VariableSizeFuel, powerSetFuel_neg (-1) (by norm_num) fuel 0 []]

/-- C8 (amended): the first call of the pipelines' cancel closure closes the
stop channel and succeeds — also after exhaustion, since nothing else closes
that channel — but calling it a second time closes an already-closed
channel, which panics: repeated cancellation is not a safe no-op. -/
theorem C8_second_cancel_panics :
    makeStopper ⟨false⟩ = Except.ok ⟨true⟩ ∧
    stopTwice = Except.error "close of closed channel" :=
  ⟨rfl, rfl⟩

/-- C8 counterexample: calling the cancel closure twice does not complete
as a no-op — the second `close` of the stop channel panics. -/
theorem C8_counterexample : stopTwice ≠ Except.ok ⟨true⟩ :=
  fun h => Except.noConfusion h

end Powerset
